import Mathlib

/-!
Shallow embedding of the `anki-leech-actions` add-on core
(`src/anki_leech_actions/migrations.py` and `src/anki_leech_actions/main.py`).

Python values that can appear in the JSON-like configuration are modelled by
`PyVal`; a Python `dict[str, Any]` is modelled as an insertion-ordered
association list with unique keys, where assignment to an existing key keeps
its position and a fresh key is appended (CPython dict semantics).
-/

namespace LeechActions

/-- A JSON-like Python value (the configuration payload never holds floats). -/
inductive PyVal where
  | none
  | bool (b : Bool)
  | int (n : Int)
  | str (s : String)
  | list (xs : List PyVal)
  | dict (kvs : List (String × PyVal))

/-- A Python `dict[str, Any]` as an insertion-ordered association list. -/
abbrev Config := List (String × PyVal)

/-- `d.get(k)` / `d.get(k, default)` without the default: first binding of `k`. -/
def dictGet (d : Config) (k : String) : Option PyVal :=
  match d with
  | [] => Option.none
  | (k2, v) :: rest => if k2 = k then some v else dictGet rest k

/-- `d[k] = v`: replace in place when the key exists, append otherwise. -/
def dictSet (d : Config) (k : String) (v : PyVal) : Config :=
  match d with
  | [] => [(k, v)]
  | (k2, v2) :: rest => if k2 = k then (k2, v) :: rest else (k2, v2) :: dictSet rest k v

/-- `d.setdefault(k, v)` restricted to its effect on the dict. -/
def setdefault (d : Config) (k : String) (v : PyVal) : Config :=
  match dictGet d k with
  | some _ => d
  | Option.none => d ++ [(k, v)]

/-- Python truthiness of the modelled values. -/
def truthy : PyVal → Bool
  | .none => false
  | .bool b => b
  | .int n => decide (n ≠ 0)
  | .str s => !s.isEmpty
  | .list xs => !xs.isEmpty
  | .dict kvs => !kvs.isEmpty

/-- Value of a nonempty all-digit run, most significant first. -/
def digitsVal (cs : List Char) : Option Int :=
  if cs.isEmpty then Option.none
  else if cs.all (·.isDigit) then
    some (cs.foldl (fun acc c => acc * 10 + ((c.toNat - 48 : Nat) : Int)) 0)
  else Option.none

/-- Decimal integer literal with an optional sign. -/
def parseIntChars : List Char → Option Int
  | '+' :: rest => digitsVal rest
  | '-' :: rest => (digitsVal rest).map (fun n => -n)
  | cs => digitsVal cs

/-- The characters Python `str.strip()` removes (ASCII whitespace; the
non-ASCII Unicode spaces Python also strips are not modelled). -/
def pySpace (c : Char) : Bool :=
  c = ' ' || c = '\t' || c = '\n' || c = '\r' || c = '\x0b' || c = '\x0c'

/-- `str.strip()` on a character list. -/
def charStrip (cs : List Char) : List Char :=
  ((cs.dropWhile pySpace).reverse.dropWhile pySpace).reverse

/-- `str.strip()`. -/
def pyStrip (s : String) : String :=
  ⟨charStrip s.data⟩

/-- `str.lower()` on one character (ASCII; Python also lowercases non-ASCII
letters, which the configuration strings of this add-on never contain). -/
def pyLowerChar (c : Char) : Char :=
  if 'A' ≤ c && c ≤ 'Z' then Char.ofNat (c.toNat + 32) else c

/-- `str.lower()`. -/
def pyLower (s : String) : String :=
  ⟨s.data.map pyLowerChar⟩

/-- Python `int(s)` on a string: surrounding whitespace is ignored, then an
optionally signed decimal literal is required.  (Underscore digit separators
and non-ASCII digits are not modelled.)  `Option.none` models `ValueError`. -/
def pyIntOfString (s : String) : Option Int :=
  parseIntChars (charStrip s.data)

/-- Python `int(v)`: `Option.none` models the `TypeError`/`ValueError` raised
on `None`, lists, and dicts, and on non-numeric strings. -/
def pyToInt : PyVal → Option Int
  | .bool b => some (if b then 1 else 0)
  | .int n => some n
  | .str s => pyIntOfString s
  | _ => Option.none

/-! ### migrations.py -/

/-- `v1`: introduce `schema_version` and ensure base keys exist. -/
def v1 (config : Config) : Config :=
  let config := setdefault config "leech_tag" (.str "leech")
  let rulesVal : PyVal :=
    match dictGet config "rules" with
    | some (.list xs) => .list xs
    | _ => .list []
  let config := dictSet config "rules" rulesVal
  let config := setdefault config "auto_run_enabled" (.bool true)
  dictSet config "schema_version" (.int 1)

/-- `v2`: ensure `auto_run_enabled` flag exists after schema v1 installs. -/
def v2 (config : Config) : Config :=
  let config := setdefault config "auto_run_enabled" (.bool true)
  dictSet config "schema_version" (.int 2)

/-- `v3`: add optional notification toggle for auto processing. -/
def v3 (config : Config) : Config :=
  let config := setdefault config "show_auto_notifications" (.bool true)
  dictSet config "schema_version" (.int 3)

def MIGRATIONS : List (Config → Config) := [v1, v2, v3]

def CURRENT_SCHEMA_VERSION : Nat := MIGRATIONS.length

/-- `version = config.get("schema_version") or 0` followed by
`int(version)` with `TypeError`/`ValueError` handled as `0`. -/
def readVersion (config : Config) : Int :=
  let version := (dictGet config "schema_version").getD .none
  let version := if truthy version then version else PyVal.int 0
  (pyToInt version).getD 0

/-- The `for target_version, migration in enumerate(MIGRATIONS, start=1)` loop
of `run_migrations`, with the enumeration counter passed explicitly. -/
def migrationLoop : Int → List (Config → Config) → Config → Int → Bool → Config × Bool
  | _, [], config, _, updated => (config, updated)
  | target, m :: rest, config, currentVersion, updated =>
    if currentVersion < target then migrationLoop (target + 1) rest (m config) target true
    else migrationLoop (target + 1) rest config currentVersion updated

/-- `run_migrations`: apply migrations only when the stored schema is outdated. -/
def run_migrations (config : Config) : Config × Bool :=
  migrationLoop 1 MIGRATIONS config (readVersion config) false

/-! ### `fnmatch` shell-style globbing (as used by `_rule_matches`)

`fnmatch.fnmatch` compiles the pattern to a regular expression and matches the
whole name; on POSIX `os.path.normcase` is the identity, so matching is
case-sensitive.  The pattern language is tokenized here: `*` matches any
sequence of characters (including the empty one), `?` matches exactly one
character, `[...]` is a character class (`!` negates, a leading `]` is
literal, an unterminated `[` is a literal bracket), and anything else matches
itself. -/

/-- One member of a `[...]` character class. -/
inductive ClassItem where
  | single (c : Char)
  | range (lo hi : Char)
deriving DecidableEq

/-- One compiled pattern token. -/
inductive Token where
  | star
  | anyc
  | lit (c : Char)
  | cls (negated : Bool) (items : List ClassItem)
deriving DecidableEq

/-- Does character class item `it` match `c`? -/
def itemMatch (c : Char) : ClassItem → Bool
  | .single a => a = c
  | .range lo hi => decide (lo ≤ c) && decide (c ≤ hi)

/-- Does the (possibly negated) class match `c`? -/
def classMatch (negated : Bool) (items : List ClassItem) (c : Char) : Bool :=
  if negated then !(items.any (itemMatch c)) else items.any (itemMatch c)

/-- Split the body of a character class at its closing `]`.
Returns the body and the remainder after the bracket. -/
def splitClassBody : List Char → Option (List Char × List Char)
  | [] => Option.none
  | ']' :: rest => some ([], rest)
  | c :: rest => (splitClassBody rest).map (fun p => (c :: p.1, p.2))

/-- Class-body items: `a-z` is a range, a `-` at either end is literal. -/
def parseItems : List Char → List ClassItem
  | [] => []
  | a :: '-' :: b :: rest => .range a b :: parseItems rest
  | a :: rest => .single a :: parseItems rest

/-- Parse the inside of a `[...]` class, given the characters after the `[`:
an optional leading `!` negates, a `]` directly after that is literal, and the
body runs to the next `]` (no such `]` means the `[` itself was literal). -/
def parseClassBody (rest : List Char) : Option (Bool × List ClassItem × List Char) :=
  let (negated, r1) :=
    match rest with
    | '!' :: r => (true, r)
    | _ => (false, rest)
  match r1 with
  | ']' :: r2 =>
    (splitClassBody r2).map (fun p => (negated, parseItems (']' :: p.1), p.2))
  | _ =>
    (splitClassBody r1).map (fun p => (negated, parseItems p.1, p.2))

/-- Tokenizer with explicit fuel; every step consumes at least one input
character, so fuel equal to the input length always suffices. -/
def translateFuel : Nat → List Char → List Token
  | 0, _ => []
  | _ + 1, [] => []
  | fuel + 1, c :: rest =>
    if c = '*' then .star :: translateFuel fuel rest
    else if c = '?' then .anyc :: translateFuel fuel rest
    else if c = '[' then
      match parseClassBody rest with
      | some (negated, items, after) => Token.cls negated items :: translateFuel fuel after
      | Option.none => .lit '[' :: translateFuel fuel rest
    else .lit c :: translateFuel fuel rest

/-- Compile a glob pattern to tokens. -/
def translatePat (pat : List Char) : List Token :=
  translateFuel pat.length pat

/-- Anchored token-list matching; `star` tries every suffix of the input. -/
def globMatch : List Token → List Char → Bool
  | [], cs => cs.isEmpty
  | .star :: ps, cs => cs.tails.any (fun t => globMatch ps t)
  | .anyc :: ps, cs =>
    match cs with
    | [] => false
    | _ :: cs2 => globMatch ps cs2
  | .lit a :: ps, cs =>
    match cs with
    | [] => false
    | c :: cs2 => a = c && globMatch ps cs2
  | .cls negated items :: ps, cs =>
    match cs with
    | [] => false
    | c :: cs2 => classMatch negated items c && globMatch ps cs2

/-- `fnmatch(name, pattern)` with POSIX (identity) case normalization. -/
def fnmatch (name pattern : String) : Bool :=
  globMatch (translatePat pattern.data) name.data

/-! ### main.py: action vocabulary and the `Rule` value type -/

/-- A string in single quotes, as `repr()` shows it inside containers
(string escapes are not modelled). -/
def quoteStr (s : String) : String :=
  (Char.ofNat 39).toString ++ s ++ (Char.ofNat 39).toString

/-- `repr()` of the modelled values. -/
def pyRepr : PyVal → String
  | .none => "None"
  | .bool true => "True"
  | .bool false => "False"
  | .int n => toString n
  | .str s => quoteStr s
  | .list xs => "[" ++ String.intercalate ", " (xs.attach.map (fun v => pyRepr v.1)) ++ "]"
  | .dict kvs =>
    "\x7b" ++
      String.intercalate ", "
        (kvs.attach.map (fun kv => quoteStr kv.1.1 ++ ": " ++ pyRepr kv.1.2)) ++
    "\x7d"
decreasing_by
  · have h := List.sizeOf_lt_of_mem v.2
    simp only [PyVal.list.sizeOf_spec]
    omega
  · have h := List.sizeOf_lt_of_mem kv.2
    obtain ⟨⟨k, w⟩, hmem⟩ := kv
    simp only [Prod.mk.sizeOf_spec] at h
    simp only [PyVal.dict.sizeOf_spec]
    omega

/-- `str()` of the modelled values. -/
def pyStr : PyVal → String
  | .str s => s
  | v => pyRepr v

def ACTION_OPTIONS : List (String × String) :=
  [("Reset progress", "reset"),
   ("Delay card", "delay"),
   ("Delete card", "delete"),
   ("Reset lapse count", "reset_lapses"),
   ("Remove leech tag", "remove_tag")]

def ACTION_LABEL_MAP : List (String × String) :=
  ACTION_OPTIONS.map (fun p => (pyLower p.1, p.2))

def ALLOWED_ACTIONS : List String :=
  ACTION_OPTIONS.map (fun p => p.2)

/-- First value bound to `k` in an association list (`dict.get(k)`). -/
def assocGet (m : List (String × String)) (k : String) : Option String :=
  (m.find? (fun p => p.1 = k)).map (fun p => p.2)

/-- A configured management rule.  The `deck` and `note_type` fields keep the
raw (possibly non-string) value exactly as `Rule.from_raw` stores it. -/
structure Rule where
  deck : PyVal
  note_type : PyVal
  action : String
  delay_days : Option Int

/-- `str(data.get("action", "reset")).strip().lower()` followed by the label
lookup of `Rule.from_raw` (lines 93-94 of main.py), before the
`ALLOWED_ACTIONS` membership check. -/
def normalizedActionOf (data : Config) : String :=
  let raw_action := pyStrip (pyStr ((dictGet data "action").getD (.str "reset")))
  (assocGet ACTION_LABEL_MAP (pyLower raw_action)).getD (pyLower raw_action)

/-- Is `raw_delay in (None, "")`, i.e. exempt from the `int()` conversion? -/
def delayExempt : PyVal → Bool
  | .none => true
  | .str s => s.isEmpty
  | _ => false

/-- `Rule.from_raw`.  `Option.none` models the uncaught `TypeError` or
`ValueError` that `int(raw_delay)` raises on a value that is neither absent,
`None`, `""`, nor coercible to an integer. -/
def Rule.from_raw (data : Config) : Option Rule :=
  let deck := (dictGet data "deck").getD (.str "*")
  let note_type := (dictGet data "note_type").getD (.str "*")
  let normalized_action := normalizedActionOf data
  let normalized_action :=
    if normalized_action ∈ ALLOWED_ACTIONS then normalized_action else "reset"
  let raw_delay := (dictGet data "delay_days").getD .none
  let delayStep : Option (Option Int) :=
    if delayExempt raw_delay then some Option.none
    else match pyToInt raw_delay with
      | some n => some (some n)
      | Option.none => Option.none
  match delayStep with
  | Option.none => Option.none
  | some delay =>
    let delay : Option Int :=
      if normalized_action ≠ "delay" then Option.none
      else match delay with
        | some d => some (max 1 d)
        | Option.none => some 7
    some ⟨deck, note_type, normalized_action, delay⟩

/-! ### main.py: host collection state and the action executor -/

/-- The card fields the engine reads or writes. -/
structure Card where
  id : Int
  nid : Int
  did : Int
  queue : Int
  ctype : Int
  ivl : Int
  due : Int
  lapses : Int
deriving DecidableEq

/-- The note fields the engine reads or writes; `mid` is `Option` because the
code reads it with `getattr(note, "mid", None)`. -/
structure Note where
  id : Int
  mid : Option Int
  tags : List String
deriving DecidableEq

/-- The slice of the host collection the engine touches.  Deck and note-type
lookups are name tables; `today` is the host scheduler day counter. -/
structure Collection where
  cards : List (Int × Card)
  notes : List (Int × Note)
  deckNames : List (Int × String)
  modelNames : List (Int × String)
  today : Int
deriving DecidableEq

/-- First value bound to `k` in an id-keyed table. -/
def idGet {α : Type} (m : List (Int × α)) (k : Int) : Option α :=
  (m.find? (fun p => p.1 = k)).map (fun p => p.2)

/-- Replace the value bound to `k`, or append a fresh binding. -/
def idSet {α : Type} (m : List (Int × α)) (k : Int) (v : α) : List (Int × α) :=
  match m with
  | [] => [(k, v)]
  | (k2, v2) :: rest => if k2 = k then (k2, v) :: rest else (k2, v2) :: idSet rest k v

/-- A host-store call made by the executor, in call order. -/
inductive Effect where
  | noteFlush (id : Int) (tags : List String)
  | cardFlush (c : Card)
  | removeCards (ids : List Int)
  | resetCards (ids : List Int)
deriving DecidableEq

/-- The mutable state threaded through one `apply_rules_to_card` call: the
card and note objects, the host collection, and the host calls made so far. -/
structure EngineState where
  card : Card
  note : Note
  col : Collection
  trace : List Effect
deriving DecidableEq

/-- `col.decks.name(card.did)`; an unknown deck id is modelled as the empty
name (the host-side fallback string is irrelevant to the engine). -/
def deckNameOf (col : Collection) (did : Int) : String :=
  (idGet col.deckNames did).getD ""

/-- `model = col.models.get(mid) if model_id else None` followed by
`model.get("name", "") if model else ""`; note the truthiness test, under
which a `mid` of `0` also yields the empty name. -/
def modelNameOf (col : Collection) (mid : Option Int) : String :=
  match mid with
  | Option.none => ""
  | some m => if m = 0 then "" else (idGet col.modelNames m).getD ""

/-- `_strip_leech_tag`: no-op when the tag is absent; otherwise filter the
tag out and flush the note (persist it and record the host call). -/
def strip_leech_tag (tag : String) (st : EngineState) : EngineState :=
  if tag ∈ st.note.tags then
    let note := { st.note with tags := st.note.tags.filter (fun t => t ≠ tag) }
    { st with
      note := note
      col := { st.col with notes := idSet st.col.notes note.id note }
      trace := st.trace ++ [.noteFlush note.id note.tags] }
  else st

/-- `_delete_card`: `col.rem_cards([card.id])`. -/
def delete_card (st : EngineState) : EngineState :=
  { st with
    col := { st.col with cards := st.col.cards.filter (fun p => p.1 ≠ st.card.id) }
    trace := st.trace ++ [.removeCards [st.card.id]] }

/-- `_reset_card`: `col.sched.reset_cards([card.id])`; the host scheduler's
own state change happens behind this call and is recorded as an effect. -/
def reset_card (st : EngineState) : EngineState :=
  { st with trace := st.trace ++ [.resetCards [st.card.id]] }

/-- `_delay_card`: clamp the delay, reschedule the card, flush it. -/
def delay_card (st : EngineState) (delay_days : Int) : EngineState :=
  let delay_days := max 1 delay_days
  let card := { st.card with
    queue := 2, ctype := 2, ivl := delay_days, due := st.col.today + delay_days }
  { st with
    card := card
    col := { st.col with cards := idSet st.col.cards card.id card }
    trace := st.trace ++ [.cardFlush card] }

/-- `_reset_lapses`: zero the lapse counter and flush the card. -/
def reset_lapses_card (st : EngineState) : EngineState :=
  let card := { st.card with lapses := 0 }
  { st with
    card := card
    col := { st.col with cards := idSet st.col.cards card.id card }
    trace := st.trace ++ [.cardFlush card] }

/-- The per-card / per-batch outcome tally (`_empty_summary`'s six keys). -/
structure Summary where
  delete : Nat
  reset : Nat
  delay : Nat
  reset_lapses : Nat
  remove_tag : Nat
  skipped : Nat
deriving DecidableEq

/-- `_empty_summary()`. -/
def emptySummary : Summary := ⟨0, 0, 0, 0, 0, 0⟩

/-- `_execute_rule`: run (or, when simulating, skip) the host mutations of
the rule's action and tally its key; an unrecognized action tallies
`skipped`.  In the `delay` branch, `rule.delay_days or 7` treats both `None`
and `0` as missing. -/
def execute_rule (tag : String) (rule : Rule) (simulate : Bool) (st : EngineState)
    (summary : Summary) : EngineState × Summary :=
  if rule.action = "delete" then
    let st := if simulate then st else delete_card (strip_leech_tag tag st)
    (st, { summary with delete := summary.delete + 1 })
  else if rule.action = "reset" then
    let st := if simulate then st else strip_leech_tag tag (reset_card st)
    (st, { summary with reset := summary.reset + 1 })
  else if rule.action = "delay" then
    let delay_days : Int :=
      match rule.delay_days with
      | some d => if d = 0 then 7 else d
      | Option.none => 7
    let st := if simulate then st else strip_leech_tag tag (delay_card st delay_days)
    (st, { summary with delay := summary.delay + 1 })
  else if rule.action = "reset_lapses" then
    let st := if simulate then st else strip_leech_tag tag (reset_lapses_card st)
    (st, { summary with reset_lapses := summary.reset_lapses + 1 })
  else if rule.action = "remove_tag" then
    let st := if simulate then st else strip_leech_tag tag st
    (st, { summary with remove_tag := summary.remove_tag + 1 })
  else
    (st, { summary with skipped := summary.skipped + 1 })

/-- `_rule_matches`: `fnmatch(deck_name, rule.deck) and fnmatch(model_name,
rule.note_type)`.  `Option.none` models the `TypeError` `fnmatch` raises on a
non-string pattern; the Python `and` short-circuits, so a failing deck
pattern hides a bad note-type pattern. -/
def rule_matches (rule : Rule) (deck_name model_name : String) : Option Bool :=
  match rule.deck with
  | .str d =>
    if fnmatch deck_name d then
      match rule.note_type with
      | .str n => some (fnmatch model_name n)
      | _ => Option.none
    else some false
  | _ => Option.none

/-- The `for rule in self.config.rules` loop of `apply_rules_to_card`,
threading the engine state, the tally, and the `matched` flag; a fired
`delete` breaks out of the loop. -/
def applyRulesLoop (tag : String) (simulate : Bool) (deck_name model_name : String) :
    List Rule → EngineState → Summary → Bool → Option (EngineState × Summary × Bool)
  | [], st, summary, matched => some (st, summary, matched)
  | rule :: rest, st, summary, matched =>
    match rule_matches rule deck_name model_name with
    | Option.none => Option.none
    | some false => applyRulesLoop tag simulate deck_name model_name rest st summary matched
    | some true =>
      let es := execute_rule tag rule simulate st summary
      if rule.action = "delete" then some (es.1, es.2, true)
      else applyRulesLoop tag simulate deck_name model_name rest es.1 es.2 true

/-- What one `apply_rules_to_card` call produces: its tally, the final card
and note objects, the updated collection, and the host calls it made. -/
structure ApplyResult where
  summary : Summary
  card : Card
  note : Note
  col : Collection
  trace : List Effect
deriving DecidableEq

/-- `apply_rules_to_card(card, simulate)`.  The note is fetched once with
`card.note()` (`Option.none` models the host error on a missing note), the
deck and note-type names are computed once, the rules run in order, and a
card no rule matched tallies `skipped`. -/
def apply_rules_to_card (tag : String) (rules : List Rule) (col : Collection)
    (card : Card) (simulate : Bool) : Option ApplyResult :=
  match idGet col.notes card.nid with
  | Option.none => Option.none
  | some note =>
    let deck_name := deckNameOf col card.did
    let model_name := modelNameOf col note.mid
    match applyRulesLoop tag simulate deck_name model_name rules
        ⟨card, note, col, []⟩ emptySummary false with
    | Option.none => Option.none
    | some (st, summary, matched) =>
      let summary :=
        if matched then summary else { summary with skipped := summary.skipped + 1 }
      some ⟨summary, st.card, st.note, st.col, st.trace⟩

/-- `_get_card(cid)`: host card lookup, absent modelled as `Option.none`. -/
def get_card (col : Collection) (cid : Int) : Option Card :=
  idGet col.cards cid

/-- Key-wise sum of two tallies (`total_summary[key] += value`). -/
def sumAdd (a b : Summary) : Summary :=
  ⟨a.delete + b.delete, a.reset + b.reset, a.delay + b.delay,
   a.reset_lapses + b.reset_lapses, a.remove_tag + b.remove_tag,
   a.skipped + b.skipped⟩

/-- The `for cid in card_ids` loop of `process_cards`: a missing card counts
as `skipped`, a found card's per-card outcome is summed key-wise; the
collection state and the host-call trace thread through in input order. -/
def processLoop (tag : String) (rules : List Rule) (simulate : Bool) :
    List Int → Summary → Collection → List Effect →
    Option (Summary × Collection × List Effect)
  | [], total, col, tr => some (total, col, tr)
  | cid :: rest, total, col, tr =>
    match get_card col cid with
    | Option.none =>
      processLoop tag rules simulate rest { total with skipped := total.skipped + 1 } col tr
    | some card =>
      match apply_rules_to_card tag rules col card simulate with
      | Option.none => Option.none
      | some res =>
        processLoop tag rules simulate rest (sumAdd total res.summary) res.col
          (tr ++ res.trace)

/-- `process_cards(card_ids, simulate)`; an empty id list returns the all-zero
tally without touching the host store. -/
def process_cards (tag : String) (rules : List Rule) (col : Collection)
    (cardIds : List Int) (simulate : Bool) :
    Option (Summary × Collection × List Effect) :=
  if cardIds.isEmpty then some (emptySummary, col, [])
  else processLoop tag rules simulate cardIds emptySummary col []

/-! ### Specification vocabulary

Helpers used only to state properties of the engine: which summary key one
`_execute_rule` call bumps, which rules of a list actually fire, and the
total of a tally. -/

/-- The single key `_execute_rule` increments for a rule with this action. -/
def bump (summary : Summary) (action : String) : Summary :=
  if action = "delete" then { summary with delete := summary.delete + 1 }
  else if action = "reset" then { summary with reset := summary.reset + 1 }
  else if action = "delay" then { summary with delay := summary.delay + 1 }
  else if action = "reset_lapses" then { summary with reset_lapses := summary.reset_lapses + 1 }
  else if action = "remove_tag" then { summary with remove_tag := summary.remove_tag + 1 }
  else { summary with skipped := summary.skipped + 1 }

/-- The rules of the list that fire for a card with the given deck and
note-type names: every matching rule up to and including the first matching
`delete` rule.  (Only meaningful when no pattern raises, i.e. when the
evaluator returns a result.) -/
def firedRules (deck_name model_name : String) : List Rule → List Rule
  | [] => []
  | rule :: rest =>
    match rule_matches rule deck_name model_name with
    | some true =>
      if rule.action = "delete" then [rule]
      else rule :: firedRules deck_name model_name rest
    | _ => firedRules deck_name model_name rest

/-- Sum of all six keys of a tally. -/
def summaryTotal (s : Summary) : Nat :=
  s.delete + s.reset + s.delay + s.reset_lapses + s.remove_tag + s.skipped

/-! ### Concrete sample data for witnesses and counterexamples -/

def sampleCard : Card := ⟨1, 10, 100, 0, 0, 0, 0, 3⟩

def sampleNote : Note := ⟨10, some 5, ["leech", "x"]⟩

def sampleCol : Collection :=
  ⟨[(1, sampleCard)], [(10, sampleNote)], [(100, "Deck A")], [(5, "Basic")], 50⟩

def sampleReset : Rule := ⟨.str "*", .str "*", "reset", Option.none⟩

def sampleDelete : Rule := ⟨.str "Deck A", .str "*", "delete", Option.none⟩

def sampleOther : Rule := ⟨.str "Other deck", .str "*", "remove_tag", Option.none⟩

def sampleNoteStripped : Note := ⟨10, some 5, ["x"]⟩

def sampleColStripped : Collection :=
  ⟨[(1, sampleCard)], [(10, sampleNoteStripped)], [(100, "Deck A")], [(5, "Basic")], 50⟩

/-- What two wildcard `reset` rules do to the sample card without simulating. -/
def sampleDoubleResult : ApplyResult :=
  ⟨⟨0, 2, 0, 0, 0, 0⟩, sampleCard, sampleNoteStripped, sampleColStripped,
   [.resetCards [1], .noteFlush 10 ["x"], .resetCards [1]]⟩

/-- The rule `Rule.from_raw` builds from `action = "delay"`, `delay_days = -5`. -/
def sampleDelayRule : Rule := ⟨.str "*", .str "*", "delay", some 1⟩

/-! ## Theorems -/

theorem dictGet_dictSet_self (d : Config) (k : String) (v : PyVal) :
    dictGet (dictSet d k v) k = some v := by
  induction d with
  | nil => simp [dictSet, dictGet]
  | cons hd tl ih =>
    obtain ⟨k2, v2⟩ := hd
    by_cases h : k2 = k <;> simp [dictSet, dictGet, h, ih]

theorem readVersion_v3 (c : Config) : readVersion (v3 c) = 3 := by
  unfold v3 readVersion
  rw [dictGet_dictSet_self]
  simp [truthy, pyToInt]

/-- The three-step migration chain, written out: once any step fires, every
later step fires as well. -/
theorem run_migrations_eq (c : Config) :
    run_migrations c =
      if readVersion c < 1 then (v3 (v2 (v1 c)), true)
      else if readVersion c < 2 then (v3 (v2 c), true)
      else if readVersion c < 3 then (v3 c, true)
      else (c, false) := by
  simp only [run_migrations, MIGRATIONS, migrationLoop]
  split_ifs <;> first | rfl | omega

/-- C4: `run_migrations` is idempotent on every raw configuration mapping:
running it again on the output of a first run returns that output unchanged
and reports `was_changed = false` (so a second run, and in particular a run
on an already-current configuration, is a reported no-op). -/
theorem run_migrations_idempotent (config : Config) :
    run_migrations (run_migrations config).1 = ((run_migrations config).1, false) := by
  rw [run_migrations_eq config]
  split_ifs with h1 h2 h3
  · rw [run_migrations_eq]
    simp [readVersion_v3]
  · rw [run_migrations_eq]
    simp [readVersion_v3]
  · rw [run_migrations_eq]
    simp [readVersion_v3]
  · rw [run_migrations_eq]
    simp [h1, h2, h3]

/-- C5: migrating the empty configuration fills every default —
`leech_tag = "leech"`, `rules = []`, `auto_run_enabled = true`,
`show_auto_notifications = true`, `schema_version` = the latest schema
version — and reports `was_changed = true`. -/
theorem run_migrations_empty_defaults :
    dictGet (run_migrations []).1 "leech_tag" = some (.str "leech")
    ∧ dictGet (run_migrations []).1 "rules" = some (.list [])
    ∧ dictGet (run_migrations []).1 "auto_run_enabled" = some (.bool true)
    ∧ dictGet (run_migrations []).1 "show_auto_notifications" = some (.bool true)
    ∧ dictGet (run_migrations []).1 "schema_version"
        = some (.int (CURRENT_SCHEMA_VERSION : Nat))
    ∧ (run_migrations []).2 = true :=
  ⟨rfl, rfl, rfl, rfl, rfl, rfl⟩

/-- C10: when the stored `schema_version` coerces (through the code's own
truthiness-then-`int()` pipeline, `readVersion`) to at least the latest
schema version — including versions strictly greater than it — no migration
step executes: the configuration is returned with every key and value
unchanged and `was_changed = false`. -/
theorem run_migrations_noop_when_current (config : Config)
    (h : (CURRENT_SCHEMA_VERSION : Int) ≤ readVersion config) :
    run_migrations config = (config, false) := by
  have h3 : (3 : Int) ≤ readVersion config := by
    simpa [CURRENT_SCHEMA_VERSION, MIGRATIONS] using h
  rw [run_migrations_eq]
  have n1 : ¬ readVersion config < 1 := by omega
  have n2 : ¬ readVersion config < 2 := by omega
  have n3 : ¬ readVersion config < 3 := by omega
  simp [n1, n2, n3]

theorem tails_any_isEmpty (cs : List Char) : cs.tails.any (fun t => t.isEmpty) = true := by
  induction cs with
  | nil => rfl
  | cons c cs ih => simp only [List.tails_cons, List.any_cons, ih, Bool.or_true]

theorem globMatch_star_all (cs : List Char) : globMatch [.star] cs = true := by
  simp only [globMatch, List.isEmpty_eq_true]
  have h := tails_any_isEmpty cs
  simp only [List.isEmpty_iff] at h ⊢
  exact h

theorem globMatch_lits (pat : List Char) :
    ∀ cs, globMatch (pat.map .lit) cs = true ↔ cs = pat := by
  induction pat with
  | nil =>
    intro cs
    cases cs <;> simp [globMatch]
  | cons p pat ih =>
    intro cs
    cases cs with
    | nil => simp [globMatch]
    | cons c cs =>
      simp only [List.map_cons, globMatch, Bool.and_eq_true, decide_eq_true_iff, ih,
        List.cons.injEq]
      constructor
      · rintro ⟨h1, h2⟩
        exact ⟨h1.symm, h2⟩
      · rintro ⟨h1, h2⟩
        exact ⟨h1.symm, h2⟩

theorem globMatch_lits_append (pat : List Char) (ps : List Token) :
    ∀ cs, globMatch (pat.map .lit ++ ps) (pat ++ cs) = globMatch ps cs := by
  induction pat with
  | nil => intro cs; rfl
  | cons p pat ih =>
    intro cs
    simp [globMatch, ih]

/-- C8: rule matching is the conjunction of a shell-style glob match of the
deck pattern against the deck name and of the note-type pattern against the
note-type name; matching is case-sensitive; `*` matches any sequence of
characters (including the empty one), `?` matches exactly one character, and
bracket character classes are supported.  In particular `"*"` matches every
name, `"Japanese::*"` matches `"Japanese::Verbs"` (and any name with that
prefix) but not `"English::Verbs"`, and `"Basic"` matches exactly the
literal name `"Basic"`. -/
theorem rule_matching_glob_semantics :
    (∀ dp np a dd deck_name model_name,
      rule_matches ⟨.str dp, .str np, a, dd⟩ deck_name model_name
        = some (fnmatch deck_name dp && fnmatch model_name np))
    ∧ (∀ s : String, fnmatch s "*" = true)
    ∧ (∀ s : String, fnmatch s "?" = true ↔ s.length = 1)
    ∧ (∀ s : String, fnmatch s "Basic" = true ↔ s = "Basic")
    ∧ fnmatch "Japanese::Verbs" "Japanese::*" = true
    ∧ fnmatch "English::Verbs" "Japanese::*" = false
    ∧ (∀ s : String, fnmatch ("Japanese::" ++ s) "Japanese::*" = true)
    ∧ fnmatch "basic" "Basic" = false
    ∧ fnmatch "b" "[a-c]" = true ∧ fnmatch "d" "[a-c]" = false
    ∧ fnmatch "a" "[!a]" = false ∧ fnmatch "b" "[!a]" = true := by
  refine ⟨?_, ?_, ?_, ?_, by decide, by decide, ?_, by decide, by decide, by decide,
    by decide, by decide⟩
  · intro dp np a dd deck_name model_name
    unfold rule_matches
    cases h : fnmatch deck_name dp <;> simp [h]
  · intro s
    show globMatch [.star] s.data = true
    exact globMatch_star_all s.data
  · intro s
    show globMatch [.anyc] s.data = true ↔ s.length = 1
    obtain ⟨cs⟩ := s
    show globMatch [.anyc] cs = true ↔ cs.length = 1
    cases cs with
    | nil => simp [globMatch]
    | cons c cs => cases cs <;> simp [globMatch]
  · intro s
    have h : translatePat "Basic".data = "Basic".data.map .lit := rfl
    show globMatch (translatePat "Basic".data) s.data = true ↔ s = "Basic"
    rw [h, globMatch_lits]
    exact ⟨fun hd => String.ext hd, fun he => by rw [he]⟩
  · intro s
    have h : translatePat "Japanese::*".data = "Japanese::".data.map .lit ++ [.star] := rfl
    show globMatch (translatePat "Japanese::*".data) ("Japanese::" ++ s).data = true
    rw [h, String.data_append, globMatch_lits_append]
    exact globMatch_star_all s.data

theorem execute_rule_simulate_state (tag : String) (rule : Rule) (st : EngineState)
    (summary : Summary) : (execute_rule tag rule true st summary).1 = st := by
  simp only [execute_rule, if_true]
  split_ifs <;> rfl

theorem execute_rule_summary (tag : String) (rule : Rule) (simulate : Bool)
    (st : EngineState) (summary : Summary) :
    (execute_rule tag rule simulate st summary).2 = bump summary rule.action := by
  unfold execute_rule bump
  split_ifs <;> rfl

/-- The tally and the `matched` flag computed by the rule loop depend neither
on the `simulate` flag nor on the engine state being threaded. -/
theorem applyRulesLoop_mode (tag d m : String) :
    ∀ (rules : List Rule) (st1 st2 : EngineState) (summary : Summary) (matched : Bool),
    (applyRulesLoop tag true d m rules st1 summary matched).map (fun r => (r.2.1, r.2.2))
      = (applyRulesLoop tag false d m rules st2 summary matched).map (fun r => (r.2.1, r.2.2)) := by
  intro rules
  induction rules with
  | nil => intro st1 st2 summary matched; rfl
  | cons rule rest ih =>
    intro st1 st2 summary matched
    cases h : rule_matches rule d m with
    | none => simp [applyRulesLoop, h]
    | some b =>
      cases b with
      | false =>
        simpa [applyRulesLoop, h] using ih st1 st2 summary matched
      | true =>
        by_cases hd : rule.action = "delete"
        · simp [applyRulesLoop, h, hd, execute_rule_summary]
        · simp only [applyRulesLoop, h, hd, if_false]
          rw [execute_rule_summary tag rule true st1 summary,
            execute_rule_summary tag rule false st2 summary]
          exact ih _ _ _ _

/-- With `simulate=true` the rule loop leaves the engine state untouched. -/
theorem applyRulesLoop_simulate_frame (tag d m : String) :
    ∀ (rules : List Rule) (st : EngineState) (summary : Summary) (matched : Bool) r,
    applyRulesLoop tag true d m rules st summary matched = some r → r.1 = st := by
  intro rules
  induction rules with
  | nil =>
    intro st summary matched r hr
    simp only [applyRulesLoop, Option.some.injEq] at hr
    rw [← hr]
  | cons rule rest ih =>
    intro st summary matched r hr
    cases h : rule_matches rule d m with
    | none => simp [applyRulesLoop, h] at hr
    | some b =>
      cases b with
      | false =>
        rw [applyRulesLoop, h] at hr
        exact ih st summary matched r hr
      | true =>
        rw [applyRulesLoop, h] at hr
        simp only at hr
        by_cases hd : rule.action = "delete"
        · rw [if_pos hd] at hr
          simp only [Option.some.injEq] at hr
          rw [← hr]
          exact execute_rule_simulate_state tag rule st summary
        · rw [if_neg hd] at hr
          have := ih _ _ _ r hr
          rwa [execute_rule_simulate_state] at this

/-- C1: for every card and rule list, the dry run (`simulate=true`) returns
exactly the outcome tally that `simulate=false` would return on the same
card state and rule list, and performs no mutation at all: the card object,
the note object, the host collection and the host-call trace are all left
exactly as found. -/
theorem apply_rules_simulate_refinement (tag : String) (rules : List Rule)
    (col : Collection) (card : Card) :
    (apply_rules_to_card tag rules col card true).map (fun r => r.summary)
      = (apply_rules_to_card tag rules col card false).map (fun r => r.summary)
    ∧ (∀ res, apply_rules_to_card tag rules col card true = some res →
        res.card = card ∧ idGet col.notes card.nid = some res.note
          ∧ res.col = col ∧ res.trace = []) := by
  cases hn : idGet col.notes card.nid with
  | none =>
    constructor
    · simp [apply_rules_to_card, hn]
    · intro res hres
      simp [apply_rules_to_card, hn] at hres
  | some note =>
    have hmode := applyRulesLoop_mode tag (deckNameOf col card.did)
      (modelNameOf col note.mid) rules ⟨card, note, col, []⟩ ⟨card, note, col, []⟩
      emptySummary false
    constructor
    · cases hT : applyRulesLoop tag true (deckNameOf col card.did)
          (modelNameOf col note.mid) rules ⟨card, note, col, []⟩ emptySummary false with
      | none =>
        cases hF : applyRulesLoop tag false (deckNameOf col card.did)
            (modelNameOf col note.mid) rules ⟨card, note, col, []⟩ emptySummary false with
        | none => simp [apply_rules_to_card, hn, hT, hF]
        | some rF => rw [hT, hF] at hmode; simp at hmode
      | some rT =>
        cases hF : applyRulesLoop tag false (deckNameOf col card.did)
            (modelNameOf col note.mid) rules ⟨card, note, col, []⟩ emptySummary false with
        | none => rw [hT, hF] at hmode; simp at hmode
        | some rF =>
          rw [hT, hF] at hmode
          simp only [Option.map_some', Option.some.injEq, Prod.mk.injEq] at hmode
          simp [apply_rules_to_card, hn, hT, hF, hmode.1, hmode.2]
    · intro res hres
      rw [apply_rules_to_card, hn] at hres
      simp only at hres
      cases hT : applyRulesLoop tag true (deckNameOf col card.did)
          (modelNameOf col note.mid) rules ⟨card, note, col, []⟩ emptySummary false with
      | none => rw [hT] at hres; simp at hres
      | some rT =>
        have hframe := applyRulesLoop_simulate_frame tag (deckNameOf col card.did)
          (modelNameOf col note.mid) rules ⟨card, note, col, []⟩ emptySummary false rT hT
        rw [hT] at hres
        simp only [Option.some.injEq] at hres
        rw [← hres]
        rw [hframe]
        exact ⟨rfl, hn.symm ▸ rfl, rfl, rfl⟩

/-- C2: a matching `delete` rule halts evaluation — every rule after it in
the list is never evaluated (the result does not depend on what follows it);
when it fires for real, the leech-tag strip (the note flush) is recorded
before the card-removal call; and `delete` is the only action that halts:
a matching rule with any other action continues evaluation with the
remaining rules. -/
theorem delete_halts_and_strips_before_removal (tag d m : String) :
    (∀ (simulate : Bool) (pre : List Rule) (dr : Rule) (post post' : List Rule)
        (st : EngineState) (summary : Summary) (matched : Bool),
      dr.action = "delete" → rule_matches dr d m = some true →
      (∀ r ∈ pre, rule_matches r d m = some true → r.action ≠ "delete") →
      applyRulesLoop tag simulate d m (pre ++ dr :: post) st summary matched
        = applyRulesLoop tag simulate d m (pre ++ dr :: post') st summary matched)
    ∧ (∀ (rule : Rule) (st : EngineState) (summary : Summary),
      rule.action = "delete" →
      (execute_rule tag rule false st summary).1.trace
        = st.trace ++
            (if tag ∈ st.note.tags then
              [Effect.noteFlush st.note.id (st.note.tags.filter (fun t => t ≠ tag)),
               Effect.removeCards [st.card.id]]
            else [Effect.removeCards [st.card.id]]))
    ∧ (∀ (simulate : Bool) (rule : Rule) (rest : List Rule) (st : EngineState)
        (summary : Summary) (matched : Bool),
      rule_matches rule d m = some true → rule.action ≠ "delete" →
      applyRulesLoop tag simulate d m (rule :: rest) st summary matched
        = applyRulesLoop tag simulate d m rest
            (execute_rule tag rule simulate st summary).1
            (execute_rule tag rule simulate st summary).2 true) := by
  refine ⟨?_, ?_, ?_⟩
  · intro simulate pre
    induction pre with
    | nil =>
      intro dr post post' st summary matched hdel hmatch _
      simp [applyRulesLoop, hmatch, hdel]
    | cons r pre ih =>
      intro dr post post' st summary matched hdel hmatch hpre
      have hr := hpre r (by simp)
      have hpre' : ∀ q ∈ pre, rule_matches q d m = some true → q.action ≠ "delete" :=
        fun q hq => hpre q (by simp [hq])
      cases h : rule_matches r d m with
      | none => simp [applyRulesLoop, h]
      | some b =>
        cases b with
        | false =>
          simp only [List.cons_append, applyRulesLoop, h]
          exact ih dr post post' st summary matched hdel hmatch hpre'
        | true =>
          have hne : r.action ≠ "delete" := hr h
          simp only [List.cons_append, applyRulesLoop, h, hne, if_false]
          exact ih dr post post' _ _ true hdel hmatch hpre'
  · intro rule st summary hdel
    simp only [execute_rule, hdel, if_pos, if_true, Bool.false_eq_true, if_false]
    unfold delete_card strip_leech_tag
    by_cases htag : tag ∈ st.note.tags
    · simp [htag]
    · simp [htag]
  · intro simulate rule rest st summary matched hmatch hne
    simp [applyRulesLoop, hmatch, hne]

theorem bump_total (s : Summary) (a : String) :
    summaryTotal (bump s a) = summaryTotal s + 1 := by
  unfold bump
  split_ifs <;> simp [summaryTotal] <;> omega

theorem foldl_bump_total (l : List Rule) : ∀ s : Summary,
    summaryTotal (l.foldl (fun acc rule => bump acc rule.action) s)
      = summaryTotal s + l.length := by
  induction l with
  | nil => intro s; simp
  | cons r l ih =>
    intro s
    simp only [List.foldl_cons, ih, bump_total, List.length_cons]
    omega

/-- The rule loop bumps exactly one key per fired rule, and reports `matched`
exactly when some rule fired. -/
theorem applyRulesLoop_fired (tag d m : String) (simulate : Bool) :
    ∀ (rules : List Rule) (st : EngineState) (summary : Summary) (matched : Bool) r,
    applyRulesLoop tag simulate d m rules st summary matched = some r →
    r.2.1 = (firedRules d m rules).foldl (fun acc rule => bump acc rule.action) summary
    ∧ r.2.2 = (matched || !(firedRules d m rules).isEmpty) := by
  intro rules
  induction rules with
  | nil =>
    intro st summary matched r hr
    simp only [applyRulesLoop, Option.some.injEq] at hr
    rw [← hr]
    simp [firedRules]
  | cons rule rest ih =>
    intro st summary matched r hr
    cases h : rule_matches rule d m with
    | none => rw [applyRulesLoop, h] at hr; simp at hr
    | some b =>
      cases b with
      | false =>
        rw [applyRulesLoop, h] at hr
        have hres := ih _ _ _ _ hr
        simpa [firedRules, h] using hres
      | true =>
        rw [applyRulesLoop, h] at hr
        simp only at hr
        by_cases hd : rule.action = "delete"
        · rw [if_pos hd] at hr
          simp only [Option.some.injEq] at hr
          rw [← hr]
          simp [firedRules, h, hd, execute_rule_summary]
        · rw [if_neg hd] at hr
          have hres := ih _ _ _ _ hr
          rw [execute_rule_summary] at hres
          simp [firedRules, h, hd, hres.1, hres.2]

/-- C3 as frozen is false on the code: rules are not first-match-wins for
non-`delete` actions, so with two identical wildcard `reset` rules a single
processed card has its `reset` key incremented twice in one pass (and the
total of the six keys is 2, not 1). -/
theorem apply_rules_double_fire_counterexample :
    (apply_rules_to_card "leech" [sampleReset, sampleReset] sampleCol sampleCard false).map
        (fun r => r.summary)
      = some ⟨0, 2, 0, 0, 0, 0⟩ := by
  rfl

/-- C3 (amended): for every processed card, each rule that fires increments
exactly one key of the tally by exactly 1 (the key of its action), and a card
for which no rule fires increments exactly `skipped` by 1; several matching
non-`delete` rules all fire for the same card, so the tally is the key-wise
count of the fired rules (a fired `delete` also clears the leech tag without
incrementing `remove_tag`, see the delete-trace theorem). -/
theorem apply_rules_per_fired_increment (tag : String) (rules : List Rule)
    (col : Collection) (card : Card) (simulate : Bool) (res : ApplyResult) (note : Note)
    (happly : apply_rules_to_card tag rules col card simulate = some res)
    (hnote : idGet col.notes card.nid = some note) :
    (res.summary =
      (let fired := firedRules (deckNameOf col card.did) (modelNameOf col note.mid) rules
       let s := fired.foldl (fun acc rule => bump acc rule.action) emptySummary
       if fired.isEmpty then { s with skipped := s.skipped + 1 } else s))
    ∧ summaryTotal res.summary
        = max 1 (firedRules (deckNameOf col card.did) (modelNameOf col note.mid) rules).length
    ∧ (∀ (s : Summary) (a : String), summaryTotal (bump s a) = summaryTotal s + 1) := by
  rw [apply_rules_to_card, hnote] at happly
  simp only at happly
  cases hL : applyRulesLoop tag simulate (deckNameOf col card.did)
      (modelNameOf col note.mid) rules ⟨card, note, col, []⟩ emptySummary false with
  | none => rw [hL] at happly; simp at happly
  | some trip =>
    rw [hL] at happly
    simp only [Option.some.injEq] at happly
    have hchar := applyRulesLoop_fired tag (deckNameOf col card.did)
      (modelNameOf col note.mid) simulate rules _ _ _ _ hL
    rw [← happly]
    by_cases hemp : (firedRules (deckNameOf col card.did)
        (modelNameOf col note.mid) rules).isEmpty
    · have hm : trip.2.2 = false := by rw [hchar.2, hemp]; rfl
      have hfired : firedRules (deckNameOf col card.did)
          (modelNameOf col note.mid) rules = [] := List.isEmpty_iff.mp hemp
      refine ⟨?_, ?_, fun s a => bump_total s a⟩
      · simp [hm, hchar.1, hfired, hemp]
      · simp [hm, hchar.1, hfired, summaryTotal, emptySummary]
    · have hm : trip.2.2 = true := by
        rw [hchar.2]
        simp only [Bool.not_eq_true] at hemp
        simp [hemp]
      have hlen : (firedRules (deckNameOf col card.did)
          (modelNameOf col note.mid) rules).length ≠ 0 := by
        intro hc
        exact hemp (List.isEmpty_iff.mpr (List.length_eq_zero.mp hc))
      refine ⟨?_, ?_, fun s a => bump_total s a⟩
      · simp [hm, hchar.1, hemp]
      · simp only [hm, if_true, hchar.1, foldl_bump_total]
        have : summaryTotal emptySummary = 0 := rfl
        rw [this]
        omega

theorem sumAdd_empty_left (s : Summary) : sumAdd emptySummary s = s := by
  cases s
  simp [sumAdd, emptySummary]

/-- The batch loop relative to its accumulators: the running totals factor
out of the recursion. -/
theorem processLoop_acc (tag : String) (rules : List Rule) (simulate : Bool) :
    ∀ (ids : List Int) (total : Summary) (col : Collection) (tr : List Effect),
    processLoop tag rules simulate ids total col tr
      = (processLoop tag rules simulate ids emptySummary col []).map
          (fun r => (sumAdd total r.1, r.2.1, tr ++ r.2.2)) := by
  intro ids
  induction ids with
  | nil =>
    intro total col tr
    obtain ⟨t1, t2, t3, t4, t5, t6⟩ := total
    simp [processLoop, sumAdd, emptySummary]
  | cons cid rest ih =>
    intro total col tr
    cases hg : get_card col cid with
    | none =>
      simp only [processLoop, hg]
      rw [ih, ih { emptySummary with skipped := emptySummary.skipped + 1 } col [],
        Option.map_map]
      refine congrFun (congrArg Option.map ?_) _
      funext r
      obtain ⟨⟨d1, d2, d3, d4, d5, d6⟩, c, t⟩ := r
      obtain ⟨t1, t2, t3, t4, t5, t6⟩ := total
      simp only [Function.comp, sumAdd, emptySummary, List.nil_append, Prod.mk.injEq,
        Summary.mk.injEq, and_true, true_and]
      all_goals omega
    | some card =>
      cases ha : apply_rules_to_card tag rules col card simulate with
      | none => simp [processLoop, hg, ha]
      | some res =>
        simp only [processLoop, hg, ha]
        rw [ih, ih (sumAdd emptySummary res.summary) res.col ([] ++ res.trace),
          Option.map_map]
        refine congrFun (congrArg Option.map ?_) _
        funext r
        obtain ⟨⟨d1, d2, d3, d4, d5, d6⟩, c, t⟩ := r
        obtain ⟨rs, rca, rn, rco, rt⟩ := res
        obtain ⟨e1, e2, e3, e4, e5, e6⟩ := rs
        obtain ⟨t1, t2, t3, t4, t5, t6⟩ := total
        simp only [Function.comp, sumAdd, emptySummary, List.nil_append, List.append_assoc,
          Prod.mk.injEq, Summary.mk.injEq, and_true, true_and]
        all_goals omega

/-- `process_cards` always equals its loop started on the zero tally. -/
theorem process_cards_eq_loop (tag : String) (rules : List Rule) (simulate : Bool)
    (col : Collection) (ids : List Int) :
    process_cards tag rules col ids simulate
      = processLoop tag rules simulate ids emptySummary col [] := by
  cases ids <;> rfl

/-- All-absent batches only count skips. -/
theorem processLoop_all_absent (tag : String) (rules : List Rule) (simulate : Bool) :
    ∀ (ids : List Int) (col : Collection),
    (∀ cid ∈ ids, get_card col cid = Option.none) →
    processLoop tag rules simulate ids emptySummary col []
      = some ({ emptySummary with skipped := ids.length }, col, []) := by
  intro ids
  induction ids with
  | nil => intro col _; rfl
  | cons cid rest ih =>
    intro col habs
    simp only [processLoop, habs cid (by simp)]
    rw [processLoop_acc, ih col (fun q hq => habs q (by simp [hq]))]
    simp [sumAdd, emptySummary]
    omega

/-- C9: `process_cards` processes ids in input order and never fails on an id
whose card lookup is absent: the empty batch returns the zero outcome with
the store untouched; an absent head id adds exactly 1 to `skipped` and
nothing else on top of the rest of the batch; a found head id contributes
exactly the per-card outcome of `apply_rules_to_card` (tally summed key-wise,
host-store state and call trace threaded in order); and a batch in which
every lookup is absent returns `skipped = length` with the store untouched. -/
theorem process_cards_characterization (tag : String) (rules : List Rule)
    (simulate : Bool) :
    (∀ col : Collection, process_cards tag rules col [] simulate
        = some (emptySummary, col, []))
    ∧ (∀ (col : Collection) (cid : Int) (rest : List Int),
        get_card col cid = Option.none →
        process_cards tag rules col (cid :: rest) simulate
          = (process_cards tag rules col rest simulate).map
              (fun r => ({ r.1 with skipped := r.1.skipped + 1 }, r.2.1, r.2.2)))
    ∧ (∀ (col : Collection) (cid : Int) (rest : List Int) (card : Card)
          (res : ApplyResult),
        get_card col cid = some card →
        apply_rules_to_card tag rules col card simulate = some res →
        process_cards tag rules col (cid :: rest) simulate
          = (process_cards tag rules res.col rest simulate).map
              (fun r => (sumAdd res.summary r.1, r.2.1, res.trace ++ r.2.2)))
    ∧ (∀ (col : Collection) (ids : List Int),
        (∀ cid ∈ ids, get_card col cid = Option.none) →
        process_cards tag rules col ids simulate
          = some ({ emptySummary with skipped := ids.length }, col, [])) := by
  refine ⟨fun col => rfl, ?_, ?_, ?_⟩
  · intro col cid rest hg
    rw [process_cards_eq_loop, process_cards_eq_loop]
    simp only [processLoop, hg]
    rw [processLoop_acc]
    refine congrFun (congrArg Option.map ?_) _
    funext r
    obtain ⟨⟨d1, d2, d3, d4, d5, d6⟩, c, t⟩ := r
    simp [sumAdd, emptySummary]
    all_goals omega
  · intro col cid rest card res hg ha
    rw [process_cards_eq_loop, process_cards_eq_loop]
    simp only [processLoop, hg, ha]
    rw [processLoop_acc]
    refine congrFun (congrArg Option.map ?_) _
    funext r
    obtain ⟨⟨d1, d2, d3, d4, d5, d6⟩, c, t⟩ := r
    obtain ⟨rs, rca, rn, rco, rt⟩ := res
    obtain ⟨e1, e2, e3, e4, e5, e6⟩ := rs
    simp only [sumAdd, emptySummary, List.nil_append, Prod.mk.injEq, Summary.mk.injEq,
      and_true, true_and]
    all_goals omega
  · intro col ids habs
    rw [process_cards_eq_loop]
    exact processLoop_all_absent tag rules simulate ids col habs

/-- C6 as frozen is false on the code: with `action = "reset"` (anything
other than `delay`) and a non-integer-coercible `delay_days` of `"x"`,
`Rule.from_raw` raises `ValueError` from `int("x")` instead of producing a
rule with `delay_days = null`. -/
theorem rule_delay_nonnumeric_raises_cex :
    Rule.from_raw [("action", .str "reset"), ("delay_days", .str "x")] = Option.none :=
  rfl

/-- The two success shapes of `Rule.from_raw`: the delay field was exempt
from `int()` (absent, `None` or `""`), or it coerced to an integer. -/
theorem from_raw_shape (data : Config) (r : Rule) (h : Rule.from_raw data = some r) :
    ∃ act dd,
      r = ⟨(dictGet data "deck").getD (.str "*"),
           (dictGet data "note_type").getD (.str "*"), act, dd⟩
      ∧ act = (if normalizedActionOf data ∈ ALLOWED_ACTIONS then normalizedActionOf data
          else "reset")
      ∧ ((delayExempt ((dictGet data "delay_days").getD .none) = true
            ∧ dd = (if act ≠ "delay" then Option.none else some 7))
        ∨ (∃ n, delayExempt ((dictGet data "delay_days").getD .none) = false
            ∧ pyToInt ((dictGet data "delay_days").getD .none) = some n
            ∧ dd = (if act ≠ "delay" then Option.none else some (max 1 n)))) := by
  by_cases hex : delayExempt ((dictGet data "delay_days").getD .none) = true
  · simp only [Rule.from_raw, hex, if_true, Option.some.injEq] at h
    exact ⟨_, _, h.symm, rfl, Or.inl ⟨hex, rfl⟩⟩
  · rw [Bool.not_eq_true] at hex
    simp only [Rule.from_raw, hex, Bool.false_eq_true, if_false] at h
    cases hpi : pyToInt ((dictGet data "delay_days").getD .none) with
    | none => rw [hpi] at h; cases h
    | some n =>
      rw [hpi] at h
      simp only [Option.some.injEq] at h
      exact ⟨_, _, h.symm, rfl, Or.inr ⟨n, hex, rfl, rfl⟩⟩

/-- C6 (amended): whenever `Rule.from_raw` succeeds, the `delay_days`
invariant holds — `null` for every action other than `delay`; for `delay`,
at least 1 always, exactly 7 when the supplied value is absent, `None` or
`""`, and `max 1 n` (hence 1 for every supplied value `n ≤ 0`) when the
supplied value coerces to the integer `n`.  Construction fails instead of
normalizing when `delay_days` is supplied but not integer-coercible,
regardless of the action — see the counterexample. -/
theorem rule_delay_normalization (data : Config) (r : Rule)
    (h : Rule.from_raw data = some r) :
    (r.action ≠ "delay" → r.delay_days = Option.none)
    ∧ (r.action = "delay" → ∃ d, r.delay_days = some d ∧ 1 ≤ d)
    ∧ (r.action = "delay" →
        delayExempt ((dictGet data "delay_days").getD .none) = true →
        r.delay_days = some 7)
    ∧ (∀ n : Int, r.action = "delay" →
        delayExempt ((dictGet data "delay_days").getD .none) = false →
        pyToInt ((dictGet data "delay_days").getD .none) = some n →
        r.delay_days = some (max 1 n)) := by
  obtain ⟨act, dd, hr, hact, hdd⟩ := from_raw_shape data r h
  have ha : r.action = act := by rw [hr]
  have hd : r.delay_days = dd := by rw [hr]
  refine ⟨?_, ?_, ?_, ?_⟩
  · intro hne
    rw [ha] at hne
    rw [hd]
    rcases hdd with ⟨_, hdeq⟩ | ⟨n, _, _, hdeq⟩ <;> rw [hdeq, if_pos hne]
  · intro heq
    rw [ha] at heq
    rw [hd]
    rcases hdd with ⟨_, hdeq⟩ | ⟨n, _, _, hdeq⟩ <;>
      rw [hdeq, if_neg (by simp [heq])]
    · exact ⟨7, rfl, by norm_num⟩
    · exact ⟨max 1 n, rfl, le_max_left 1 n⟩
  · intro heq hexm
    rw [ha] at heq
    rw [hd]
    rcases hdd with ⟨_, hdeq⟩ | ⟨n, hnex, _, hdeq⟩
    · rw [hdeq, if_neg (by simp [heq])]
    · rw [hnex] at hexm
      cases hexm
  · intro n heq hnex hpi
    rw [ha] at heq
    rw [hd]
    rcases hdd with ⟨hexm, hdeq⟩ | ⟨n2, _, hpi2, hdeq⟩
    · rw [hexm] at hnex
      cases hnex
    · rw [hpi] at hpi2
      simp only [Option.some.injEq] at hpi2
      rw [hdeq, if_neg (by simp [heq]), hpi2]

/-- C7 as frozen is false on the code: a rule dictionary whose action string
is unrecognized does not always construct — with `delay_days = "x"` the
`int()` conversion (performed before the action is consulted) raises, so no
rule with action `reset` is produced. -/
theorem rule_unrecognized_action_cex :
    normalizedActionOf [("action", .str "bogus"), ("delay_days", .str "x")] ∉ ALLOWED_ACTIONS
    ∧ Rule.from_raw [("action", .str "bogus"), ("delay_days", .str "x")] = Option.none :=
  ⟨by decide, rfl⟩

/-- C7 (amended): an unrecognized action string never fails by itself — it
normalizes to `reset`: whenever construction succeeds with an unrecognized
(post-normalization) action the ruleʼs action is `reset`, and construction
does succeed whenever the supplied `delay_days` is absent, `None`, `""`, or
integer-coercible (it raises otherwise, whatever the action). -/
theorem rule_unrecognized_action_defaults (data : Config) :
    (∀ r, Rule.from_raw data = some r →
      normalizedActionOf data ∉ ALLOWED_ACTIONS → r.action = "reset")
    ∧ (delayExempt ((dictGet data "delay_days").getD .none) = true
        ∨ (∃ n, pyToInt ((dictGet data "delay_days").getD .none) = some n) →
      ∃ r, Rule.from_raw data = some r) := by
  constructor
  · intro r h hna
    obtain ⟨act, dd, hr, hact, _⟩ := from_raw_shape data r h
    have ha : r.action = act := by rw [hr]
    rw [ha, hact, if_neg hna]
  · intro hok
    by_cases hex : delayExempt ((dictGet data "delay_days").getD .none) = true
    · refine ⟨⟨(dictGet data "deck").getD (.str "*"),
        (dictGet data "note_type").getD (.str "*"),
        if normalizedActionOf data ∈ ALLOWED_ACTIONS then normalizedActionOf data else "reset",
        if (if normalizedActionOf data ∈ ALLOWED_ACTIONS then normalizedActionOf data
            else "reset") ≠ "delay" then Option.none else some 7⟩, ?_⟩
      simp only [Rule.from_raw, hex, if_true]
    · rw [Bool.not_eq_true] at hex
      rcases hok with hok | ⟨n, hn⟩
      · rw [hok] at hex
        cases hex
      · refine ⟨⟨(dictGet data "deck").getD (.str "*"),
          (dictGet data "note_type").getD (.str "*"),
          if normalizedActionOf data ∈ ALLOWED_ACTIONS then normalizedActionOf data else "reset",
          if (if normalizedActionOf data ∈ ALLOWED_ACTIONS then normalizedActionOf data
              else "reset") ≠ "delay" then Option.none else some (max 1 n)⟩, ?_⟩
        simp only [Rule.from_raw, hex, Bool.false_eq_true, if_false, hn]

/-- A configuration stamped by a (hypothetical) future release is returned
untouched and unreported. -/
theorem run_migrations_noop_witness :
    (CURRENT_SCHEMA_VERSION : Int)
        ≤ readVersion [("schema_version", .int 5), ("extra", .str "kept")]
    ∧ run_migrations [("schema_version", .int 5), ("extra", .str "kept")]
        = ([("schema_version", .int 5), ("extra", .str "kept")], false) :=
  ⟨by norm_num [CURRENT_SCHEMA_VERSION, MIGRATIONS, readVersion, dictGet, truthy, pyToInt],
   run_migrations_noop_when_current _
     (by norm_num [CURRENT_SCHEMA_VERSION, MIGRATIONS, readVersion, dictGet, truthy, pyToInt])⟩

/-- The per-fired-rule tally characterization at a concrete double-fire run:
both wildcard `reset` rules fire for the sample card, so the total of the
tally is 2. -/
theorem apply_rules_per_fired_increment_witness :
    summaryTotal sampleDoubleResult.summary
      = max 1 (firedRules (deckNameOf sampleCol sampleCard.did)
          (modelNameOf sampleCol sampleNote.mid) [sampleReset, sampleReset]).length :=
  (apply_rules_per_fired_increment "leech" [sampleReset, sampleReset] sampleCol sampleCard
    false sampleDoubleResult sampleNote rfl rfl).2.1

/-- Delay clamping at a concrete input: a supplied `delay_days = -5` under
action `delay` normalizes to `max 1 (-5) = 1`. -/
theorem rule_delay_normalization_witness :
    sampleDelayRule.delay_days = some (max 1 (-5 : Int)) :=
  (rule_delay_normalization [("action", .str "delay"), ("delay_days", .int (-5))]
    sampleDelayRule (by rfl)).2.2.2 (-5) rfl (by rfl) (by rfl)

end LeechActions
